import Mathlib

/-!
Formal model of the starman scene-graph / GPU-buffer core.

The definitions below are shallow embeddings of the Rust sources:
  * `src/scene/scene_node.rs`   — scene tree, lazy world-transform resolution
  * `src/resource/gpu_vector.rs` — CPU/GPU dual-resident buffer
  * `src/builtin/object_material.rs` — draw-call emission
  * `src/resource/mesh.rs`      — normal computation

Rigid transforms (`nalgebra::Isometry3<f32>`) are modelled exactly, with
`f32` scalars replaced by exact integers (every claim settled here is
ring-algebraic, and every concrete value used below is exactly representable
in `f32`, so each computation coincides with the floating-point one): a
rotation is represented by its 3×3 action matrix (the image of
the unit quaternion under the quaternion-to-matrix monoid homomorphism) and
a translation by a 3-vector.  Composition and inversion mirror nalgebra:
`(a * b).rot = a.rot * b.rot`, `(a * b).trans = a.trans + a.rot ⬝ b.trans`,
`a⁻¹ = (a.rotᵀ, -(a.rotᵀ ⬝ a.trans))` (a unit quaternion's inverse acts as
the transpose of its rotation matrix).
-/

/-- A 3-vector with exact integer entries (model of `Vector3<f32>` / `Point3<f32>`). -/
structure Vec3 where
  x : ℤ
  y : ℤ
  z : ℤ
deriving DecidableEq, Repr

namespace Vec3

def add (a b : Vec3) : Vec3 := ⟨a.x + b.x, a.y + b.y, a.z + b.z⟩

def neg (a : Vec3) : Vec3 := ⟨-a.x, -a.y, -a.z⟩

/-- `Vector3::component_mul` (componentwise product, used for scale composition). -/
def cmul (a b : Vec3) : Vec3 := ⟨a.x * b.x, a.y * b.y, a.z * b.z⟩

def zero : Vec3 := ⟨0, 0, 0⟩

/-- The all-ones scale vector (`Vector3::from_element(1.0)`). -/
def ones : Vec3 := ⟨1, 1, 1⟩

end Vec3

/-- A 3×3 exact integer matrix: the action of a rotation (model of the matrix image
of `UnitQuaternion<f32>`). -/
structure Mat3 where
  m11 : ℤ
  m12 : ℤ
  m13 : ℤ
  m21 : ℤ
  m22 : ℤ
  m23 : ℤ
  m31 : ℤ
  m32 : ℤ
  m33 : ℤ
deriving DecidableEq, Repr

namespace Mat3

def mul (a b : Mat3) : Mat3 :=
  ⟨a.m11 * b.m11 + a.m12 * b.m21 + a.m13 * b.m31,
   a.m11 * b.m12 + a.m12 * b.m22 + a.m13 * b.m32,
   a.m11 * b.m13 + a.m12 * b.m23 + a.m13 * b.m33,
   a.m21 * b.m11 + a.m22 * b.m21 + a.m23 * b.m31,
   a.m21 * b.m12 + a.m22 * b.m22 + a.m23 * b.m32,
   a.m21 * b.m13 + a.m22 * b.m23 + a.m23 * b.m33,
   a.m31 * b.m11 + a.m32 * b.m21 + a.m33 * b.m31,
   a.m31 * b.m12 + a.m32 * b.m22 + a.m33 * b.m32,
   a.m31 * b.m13 + a.m32 * b.m23 + a.m33 * b.m33⟩

def one : Mat3 := ⟨1, 0, 0, 0, 1, 0, 0, 0, 1⟩

def transpose (a : Mat3) : Mat3 :=
  ⟨a.m11, a.m21, a.m31, a.m12, a.m22, a.m32, a.m13, a.m23, a.m33⟩

def mulVec (a : Mat3) (v : Vec3) : Vec3 :=
  ⟨a.m11 * v.x + a.m12 * v.y + a.m13 * v.z,
   a.m21 * v.x + a.m22 * v.y + a.m23 * v.z,
   a.m31 * v.x + a.m32 * v.y + a.m33 * v.z⟩

end Mat3

/-- Model of `nalgebra::Isometry3<f32>`: a rotation (as its action matrix)
plus a translation.  Composition and inverse mirror nalgebra exactly. -/
structure Iso3 where
  rot : Mat3
  trans : Vec3
deriving DecidableEq, Repr

namespace Iso3

/-- `Isometry3` multiplication: `(a * b).rotation = a.rotation * b.rotation`,
`(a * b).translation = a.translation + a.rotation * b.translation`. -/
def comp (a b : Iso3) : Iso3 :=
  ⟨a.rot.mul b.rot, (a.trans.add (a.rot.mulVec b.trans))⟩

/-- `nalgebra::one()`: the identity isometry. -/
def id3 : Iso3 := ⟨Mat3.one, Vec3.zero⟩

/-- `Isometry3::inverse`: invert the rotation (transpose of its matrix image)
and counter-rotate the negated translation. -/
def inverse (a : Iso3) : Iso3 :=
  ⟨a.rot.transpose, (a.rot.transpose.mulVec a.trans).neg⟩

end Iso3

/-!
## GPU buffer model (`src/resource/gpu_vector.rs`)

`GPUVec<T>` is modelled by `GPUVecSt`: the `trash` dirty flag, the cached
`len`, an optional GPU buffer (represented by its recorded allocated length —
the `usize` stored alongside the backend handle) and the optional CPU array.
Backend calls are recorded as an event trace; a fallible operation returns
`Except String _` where `.error msg` models a Rust `panic!(msg)`.
-/

/-- A recorded graphics-backend call. -/
inductive GLEvent where
  | createBuffer : GLEvent
  | bindBuffer : GLEvent
  | bufferSubData (n : ℕ) : GLEvent
  | bufferData (n : ℕ) : GLEvent
  | deleteBuffer : GLEvent
deriving DecidableEq, Repr

/-- State of one `GPUVec<T>` (element type fixed to `ℤ`; the claims are
agnostic in the element type, which is never computed on). -/
structure GPUVecSt where
  trash : Bool
  len : ℕ
  buffer : Option ℕ
  data : Option (List ℤ)
deriving DecidableEq, Repr

namespace GPUVecSt

/-- `GPUVec::new`: CPU resident, dirty, no GPU handle. -/
def new (d : List ℤ) : GPUVecSt :=
  { trash := true, len := d.length, buffer := none, data := some d }

/-- `GPUVec::is_on_gpu`. -/
def is_on_gpu (s : GPUVecSt) : Bool := s.buffer.isSome

/-- `GPUVec::is_on_ram`. -/
def is_on_ram (s : GPUVecSt) : Bool := s.data.isSome

/-- `GPUVec::len`: if dirty, read the CPU array's length — panicking
(`"This should never happend."`) when there is no CPU array — else the cache. -/
def len_query (s : GPUVecSt) : Except String ℕ :=
  if s.trash then
    match s.data with
    | some d => .ok d.length
    | none => .error "This should never happend."
  else
    .ok s.len

/-- `GPUVec::data_mut` followed by the caller writing `v` through the returned
mutable reference: marks dirty unconditionally. -/
def data_mut_set (s : GPUVecSt) (v : Option (List ℤ)) : GPUVecSt :=
  { s with trash := true, data := v }

/-- `update_buffer` (free function): bind, then a sub-range update when the
new array is strictly shorter than the allocated GPU length, else a full
(re)allocating upload; returns the new recorded GPU length. -/
def update_buffer (arr : List ℤ) (gpu_buf_len : ℕ) : ℕ × List GLEvent :=
  if arr.length < gpu_buf_len then
    (gpu_buf_len, [.bindBuffer, .bufferSubData arr.length])
  else
    (arr.length, [.bindBuffer, .bufferData arr.length])

/-- `upload_array`: create a fresh buffer and fill it via `update_buffer`
with a recorded length of `0`. -/
def upload_array (arr : List ℤ) : List GLEvent :=
  .createBuffer :: (update_buffer arr 0).2

/-- `GPUVec::load_to_gpu`. -/
def load_to_gpu (s : GPUVecSt) : GPUVecSt × List GLEvent :=
  if s.is_on_gpu = false then
    match s.data with
    | some d =>
        ({ s with len := d.length, buffer := some d.length, trash := false },
         upload_array d)
    | none => ({ s with trash := false }, [])
  else if s.trash then
    match s.data, s.buffer with
    | some d, some l =>
        let r := update_buffer d l
        ({ s with len := d.length, buffer := some r.1, trash := false }, r.2)
    | _, _ => ({ s with trash := false }, [])
  else
    ({ s with trash := false }, [])

/-- `GPUVec::bind`: ensure the data is on the GPU, then bind it. -/
def bind (s : GPUVecSt) : GPUVecSt × List GLEvent :=
  let r := load_to_gpu s
  (r.1, r.2 ++ [.bindBuffer])

/-- `GPUVec::unload_from_gpu`: delete the handle; re-reads `len()` first
(which can panic), then clears the handle and the dirty flag. -/
def unload_from_gpu (s : GPUVecSt) : Except String (GPUVecSt × List GLEvent) :=
  let ev : List GLEvent := if s.buffer.isSome then [.deleteBuffer] else []
  match s.len_query with
  | .ok n => .ok ({ s with len := n, buffer := none, trash := false }, ev)
  | .error e => .error e

/-- `GPUVec::unload_from_ram`: sync to the GPU first only when dirty *and* a
GPU handle already exists, then drop the CPU array. -/
def unload_from_ram (s : GPUVecSt) : GPUVecSt × List GLEvent :=
  let r := if s.trash && s.is_on_gpu then load_to_gpu s else (s, [])
  ({ r.1 with data := none }, r.2)

end GPUVecSt

/-!
## Scene-node model (`src/scene/scene_node.rs`)

`SceneNodeData` owns its children (`Vec<SceneNode>`) and a weak parent
back-reference used only to walk upward during `update()`.  We model the
ownership tree directly (`SNode` with an explicit forest of children) and
model each parent-pointer-walking operation as a path-indexed operation on
the tree containing the node: a node is addressed by the list of child
indices from the root.

`update()` recurses from a dirty node up through its ancestors; here this is
implemented top-down (`update_at_go`), passing the would-be parent context
down.  `suf_dirty t p` is true exactly when the node addressed by `p` and
every node between it and the root of `t` is dirty, i.e. exactly when the
recursive `update()` call started at the addressed node propagates all the
way up to the root of `t`; a node performs the body of `update()` iff the
call reaches it (`suf_dirty` of the remaining path from its child) and it is
itself not up to date.
-/

/-- The scalar fields of one `SceneNodeData` (children aside). -/
structure NData where
  local_scale : Vec3
  local_transform : Iso3
  world_scale : Vec3
  world_transform : Iso3
  visible : Bool
  up_to_date : Bool
deriving DecidableEq, Repr

/-- `SceneNode::new(local_scale, local_transform, _)`: world caches seeded
with the locals, visible, *not* up to date. -/
def NData.fresh (ls : Vec3) (lt : Iso3) : NData :=
  { local_scale := ls, local_transform := lt, world_scale := ls,
    world_transform := lt, visible := true, up_to_date := false }

mutual

/-- A scene node: its data plus its owned children. -/
inductive SNode where
  | node (d : NData) (children : SForest)

/-- The `children: Vec<SceneNode>` of a node. -/
inductive SForest where
  | nil
  | cons (c : SNode) (rest : SForest)

end

namespace SNode

/-- The node's scalar data. -/
def ndata : SNode → NData
  | .node d _ => d

/-- The node's children. -/
def kids : SNode → SForest
  | .node _ cs => cs

/-- Index into a child vector. -/
def fget : SForest → ℕ → Option SNode
  | .nil, _ => none
  | .cons c _, 0 => some c
  | .cons _ rest, n + 1 => fget rest n

/-- Replace the child at an index (no-op when out of range). -/
def fset : SForest → ℕ → SNode → SForest
  | .nil, _, _ => .nil
  | .cons _ rest, 0, x => .cons x rest
  | .cons c rest, n + 1, x => .cons c (fset rest n x)

/-- Append one node at the end of a child vector (`Vec::push`). -/
def fpush : SForest → SNode → SForest
  | .nil, x => .cons x .nil
  | .cons c rest, x => .cons c (fpush rest x)

/-- The data of the node addressed by a path of child indices. -/
def dataAt : SNode → List ℕ → Option NData
  | .node d _, [] => some d
  | .node _ cs, i :: p =>
      match fget cs i with
      | some c => dataAt c p
      | none => none

/-- The subtree rooted at the node addressed by a path. -/
def subtreeAt : SNode → List ℕ → Option SNode
  | t, [] => some t
  | .node _ cs, i :: p =>
      match fget cs i with
      | some c => subtreeAt c p
      | none => none

/-- Whether a path addresses a node of the tree. -/
def hasPath (t : SNode) (p : List ℕ) : Bool := (dataAt t p).isSome

/-- Rewrite the subtree addressed by a path (no-op on an invalid path). -/
def modifyAt (f : SNode → SNode) : SNode → List ℕ → SNode
  | t, [] => f t
  | .node d cs, i :: p =>
      match fget cs i with
      | some c => .node d (fset cs i (modifyAt f c p))
      | none => .node d cs

mutual

/-- `SceneNodeData::invalidate`: clear this node's flag, then recurse into
exactly those children that are still up to date. -/
def invalidate : SNode → SNode
  | .node d cs => .node { d with up_to_date := false } (invalidateF cs)

/-- The loop body of `invalidate` over the children vector. -/
def invalidateF : SForest → SForest
  | .nil => .nil
  | .cons (.node d cs) rest =>
      .cons (if d.up_to_date then invalidate (.node d cs) else .node d cs)
        (invalidateF rest)

end

/-- Any local mutation (`set_local_transformation/translation/rotation/scale`,
`append_*`, `prepend_to_local_*`, `reorient`): each assigns the new local
transform and/or scale and calls `invalidate` (which reads no local field, so
the order is immaterial). -/
def apply_local_mutation (tr : Iso3) (sc : Vec3) : SNode → SNode
  | .node d cs =>
      invalidate (.node { d with local_transform := tr, local_scale := sc } cs)

/-- A local mutation of the node addressed by a path. -/
def mutateAt (t : SNode) (p : List ℕ) (tr : Iso3) (sc : Vec3) : SNode :=
  modifyAt (apply_local_mutation tr sc) t p

/-- `SceneNode::add_child` of a node built by `new`/`new_empty` (and possibly
already mutated/populated, but never yet resolved): push it onto the
children of the node addressed by the path.  `add_child` itself does not
touch any flag. -/
def attachAt (t : SNode) (p : List ℕ) (c : SNode) : SNode :=
  modifyAt (fun n => match n with | .node d cs => .node d (fpush cs c)) t p

/-- Is the node addressed by the path, together with every node strictly
between it and the root, dirty?  Exactly then does an `update()` call started
at the addressed node reach (and execute on) the root of `t`. -/
def suf_dirty : SNode → List ℕ → Bool
  | .node d _, [] => !d.up_to_date
  | .node d cs, i :: p =>
      match fget cs i with
      | some c => !d.up_to_date && suf_dirty c p
      | none => false

/-- The body of `SceneNodeData::update` on one node: compose the world
transform with the parent's resolved world transform, and the world scale
with the parent's *local* scale (`dp.local_scale` in the source). -/
def update_body (pw : Iso3) (pls : Vec3) (d : NData) : NData :=
  { d with world_transform := d.local_transform.comp pw,
           world_scale := d.local_scale.cmul pls,
           up_to_date := true }

/-- `update()` called on the node addressed by the path, implemented top-down:
`pw`/`pls` are the world transform and local scale the parent would hand to
this node.  The node executes the `update` body iff the call propagates up to
it (`suf_dirty` of the rest of the path) and it is dirty; the context passed
further down is the node's (possibly just refreshed) cache, matching the
source's reads of `dp.world_transform` and `dp.local_scale`. -/
def update_at_go (pw : Iso3) (pls : Vec3) : SNode → List ℕ → SNode
  | .node d cs, [] =>
      if d.up_to_date then .node d cs else .node (update_body pw pls d) cs
  | .node d cs, i :: p =>
      match fget cs i with
      | none => .node d cs
      | some c =>
          if suf_dirty c p then
            let d2 := if d.up_to_date then d else update_body pw pls d
            .node d2 (fset cs i (update_at_go d2.world_transform d2.local_scale c p))
          else
            .node d (fset cs i (update_at_go d.world_transform d.local_scale c p))

/-- `update()` on the node addressed by `p` inside the root-owned tree `t`
(the root has no parent: identity transform, unit scale context — on a root
the body degenerates to `world_transform = local_transform`,
`world_scale = local_scale`). -/
def update_at (t : SNode) (p : List ℕ) : SNode :=
  update_at_go Iso3.id3 Vec3.ones t p

/-- `SceneNodeData::world_transformation`: force `update()`, then read the
cached world transform. -/
def world_transformation (t : SNode) (p : List ℕ) : Iso3 :=
  ((update_at t p).dataAt p).map (fun d => d.world_transform) |>.getD Iso3.id3

/-- `SceneNodeData::inverse_world_transformation`: force `update()`, then
return the inverse of the *local* transform (the source's literal body). -/
def inverse_world_transformation (t : SNode) (p : List ℕ) : Iso3 :=
  ((update_at t p).dataAt p).map (fun d => d.local_transform.inverse)
    |>.getD Iso3.id3

mutual

/-- `SceneNodeData::do_render`: resolve against the transform/scale passed
down by the caller if not up to date, then recurse into visible children
passing this node's cache down. -/
def do_render (pt : Iso3) (ps : Vec3) : SNode → SNode
  | .node d cs =>
      let d2 := if d.up_to_date then d
        else { d with up_to_date := true,
                      world_transform := pt.comp d.local_transform,
                      world_scale := ps.cmul d.local_scale }
      .node d2 (do_renderF d2.world_transform d2.world_scale cs)

/-- The children loop of `do_render`: recurse into visible children only. -/
def do_renderF (pt : Iso3) (ps : Vec3) : SForest → SForest
  | .nil => .nil
  | .cons (.node d cs) rest =>
      .cons (if d.visible then do_render pt ps (.node d cs) else .node d cs)
        (do_renderF pt ps rest)

end

/-- `SceneNodeData::render`: start `do_render` from the root with the
identity transform and unit scale, skipping an invisible root. -/
def render (t : SNode) : SNode :=
  if t.ndata.visible then do_render Iso3.id3 Vec3.ones t else t

end SNode

namespace SNode

mutual

/-- Every flag in the subtree is `false` (tree fully unresolved). -/
def allDirty : SNode → Bool
  | .node d cs => !d.up_to_date && allDirtyF cs

/-- `allDirty` over a children vector. -/
def allDirtyF : SForest → Bool
  | .nil => true
  | .cons c rest => allDirty c && allDirtyF rest

end

mutual

/-- The pruning invariant, relative to the parent's flag `pu`: an up-to-date
node has an up-to-date parent (for a root, `pu = true`). -/
def flagOk (pu : Bool) : SNode → Prop
  | .node d cs => (d.up_to_date = true → pu = true) ∧ flagOkF d.up_to_date cs

/-- `flagOk` over a children vector. -/
def flagOkF (pu : Bool) : SForest → Prop
  | .nil => True
  | .cons c rest => flagOk pu c ∧ flagOkF pu rest

end

mutual

/-- Cache correctness relative to the context `update()` would use: `pw` is
the parent's resolved world transform and `pls` the parent's local scale; an
up-to-date node's caches hold exactly the composition `update()` writes. -/
def cacheOk (pw : Iso3) (pls : Vec3) : SNode → Prop
  | .node d cs =>
      (d.up_to_date = true →
         d.world_transform = d.local_transform.comp pw ∧
         d.world_scale = d.local_scale.cmul pls) ∧
      cacheOkF (d.local_transform.comp pw) d.local_scale cs

/-- `cacheOk` over a children vector. -/
def cacheOkF (pw : Iso3) (pls : Vec3) : SForest → Prop
  | .nil => True
  | .cons c rest => cacheOk pw pls c ∧ cacheOkF pw pls rest

end

/-- Tree states reachable from a fully unresolved tree by local mutations,
`world_transformation`-style lazy resolutions, and attaching unresolved
subtrees (`add_child` of freshly built nodes). -/
inductive ReachQ : SNode → Prop
  | init (t : SNode) : allDirty t = true → ReachQ t
  | mutate (t : SNode) (p : List ℕ) (tr : Iso3) (sc : Vec3) :
      ReachQ t → ReachQ (mutateAt t p tr sc)
  | query (t : SNode) (p : List ℕ) : ReachQ t → ReachQ (update_at t p)
  | attach (t : SNode) (p : List ℕ) (c : SNode) :
      ReachQ t → allDirty c = true → ReachQ (attachAt t p c)

/-- Like `ReachQ`, additionally closed under whole-tree render traversals. -/
inductive ReachR : SNode → Prop
  | init (t : SNode) : allDirty t = true → ReachR t
  | mutate (t : SNode) (p : List ℕ) (tr : Iso3) (sc : Vec3) :
      ReachR t → ReachR (mutateAt t p tr sc)
  | query (t : SNode) (p : List ℕ) : ReachR t → ReachR (update_at t p)
  | attach (t : SNode) (p : List ℕ) (c : SNode) :
      ReachR t → allDirty c = true → ReachR (attachAt t p c)
  | renderStep (t : SNode) : ReachR t → ReachR (render t)

/-- The data of the nodes along a path, root first (truncated at an invalid
index). -/
def chainAt : SNode → List ℕ → List NData
  | .node d _, [] => [d]
  | .node d cs, i :: p =>
      match fget cs i with
      | some c => d :: chainAt c p
      | none => [d]

/-- The product of local transforms of a chain given node-first: the node's
own local transform composed leftmost (`world = local * parent_world` at
every level, as `update()` computes it). -/
def node_first_world (ds : List NData) : Iso3 :=
  (ds.map (fun d => d.local_transform)).foldr Iso3.comp Iso3.id3

/-- The product of local transforms of a chain given root-first with the
root's local transform composed leftmost (`world = parent_world * local` at
every level — the order claimed by the specification). -/
def root_first_world (ds : List NData) : Iso3 :=
  (ds.map (fun d => d.local_transform)).foldl Iso3.comp Iso3.id3

/-- The world transform `update()` leaves on the node addressed by the path,
computed directly from the current local transforms: the node's local
transform composed (leftmost) onto its ancestors' locals down to `pw`. -/
def path_world (pw : Iso3) : SNode → List ℕ → Iso3
  | .node d _, [] => d.local_transform.comp pw
  | .node d cs, i :: p =>
      match fget cs i with
      | some c => path_world (d.local_transform.comp pw) c p
      | none => Iso3.id3

/-- The 90-degree rotation about the z axis (matrix image of the unit
quaternion `UnitQuaternion::from_axis_angle(z, pi/2)`; every entry is exactly
representable in `f32`). -/
def rotZ90 : Mat3 := ⟨0, -1, 0, 1, 0, 0, 0, 0, 1⟩

/-- A pure rotation isometry. -/
def isoRot : Iso3 := ⟨rotZ90, Vec3.zero⟩

/-- A pure unit translation along x. -/
def isoTransX : Iso3 := ⟨Mat3.one, ⟨1, 0, 0⟩⟩

/-- A freshly built two-node tree: a root with local transform `isoRot` and
one child with local transform `isoTransX` (reachable by `new` twice and one
`add_child`; both nodes unresolved). -/
def chainRT : SNode :=
  attachAt (.node (NData.fresh Vec3.ones isoRot) .nil) []
    (.node (NData.fresh Vec3.ones isoTransX) .nil)

/-- A freshly built two-node tree: root translated by one unit along x, child
with the identity local transform. -/
def chainTI : SNode :=
  attachAt (.node (NData.fresh Vec3.ones isoTransX) .nil) []
    (.node (NData.fresh Vec3.ones Iso3.id3) .nil)

/-- A freshly built three-node chain with local scales `(2,1,1)`, `(3,1,1)`,
`(5,1,1)` from root to leaf and identity local transforms. -/
def scaleChain : SNode :=
  attachAt
    (attachAt (.node (NData.fresh ⟨2, 1, 1⟩ Iso3.id3) .nil) []
      (.node (NData.fresh ⟨3, 1, 1⟩ Iso3.id3) .nil))
    [0] (.node (NData.fresh ⟨5, 1, 1⟩ Iso3.id3) .nil)

/-- A single fresh node resolved once by `world_transformation()` while it is
still a root (legal through the public API). -/
def resolvedLeaf : SNode := update_at (.node (NData.fresh Vec3.ones Iso3.id3) .nil) []

/-- The already-resolved root `resolvedLeaf` attached (`add_child` accepts
any current root) under a fresh node, itself attached under another fresh
node: the middle node is dirty while its child is still up to date. -/
def staleTree : SNode :=
  attachAt (.node (NData.fresh Vec3.ones Iso3.id3) .nil) []
    (attachAt (.node (NData.fresh Vec3.ones Iso3.id3) .nil) [] resolvedLeaf)

end SNode

/-!
## Parent/child links (`SceneNode::add_child`, C7)

For the linking discipline itself the relevant state is the parent
back-reference (`Option<Weak<...>>`) and the children vector of each node;
we model the heap of nodes as two maps over node identifiers.  A Rust
`panic!`/`assert!` is an `Except.error` carrying the state at the panic
point; `add_child` asserts before performing any mutation.
-/

/-- Parent and children links of every node (identified by a number). -/
structure NodeGraph where
  parent : ℕ → Option ℕ
  children : ℕ → List ℕ

/-- `SceneNodeData::is_root`: no parent back-reference. -/
def NodeGraph.is_root (g : NodeGraph) (n : ℕ) : Bool := (g.parent n).isNone

/-- `SceneNode::add_child`: assert the argument is currently a root (the
assertion precedes every mutation, so a failure leaves the whole state
unchanged), then set its parent back-reference and push it onto the
parent's children. -/
def NodeGraph.add_child (g : NodeGraph) (p c : ℕ) : Except NodeGraph NodeGraph :=
  if g.is_root c = false then .error g
  else
    .ok { parent := fun n => if n = c then some p else g.parent n,
          children := fun n => if n = p then g.children n ++ [c] else g.children n }

/-- A concrete two-node graph: node 1 is a child of node 0, node 2 and all
others are roots. -/
def exampleGraph : NodeGraph :=
  { parent := fun n => if n = 1 then some 0 else none,
    children := fun n => if n = 0 then [1] else [] }

/-!
## Draw submissions of `ObjectMaterial::render` (C9)

The body of `ObjectMaterial::render` is a straight-line sequence of backend
calls gated by the object's attributes; we record it as an event list.  The
two backend-dependent booleans record whether `polygon_mode(...  LINE)` and
`polygon_mode(... POINT)` report success (on backends without polygon modes
the source falls back to an edge-list or point draw — either way a single
draw is issued per enabled overlay).
-/

/-- Primitive mode of a `draw_elements` submission. -/
inductive DrawMode where
  | triangles
  | lines
  | points
deriving DecidableEq, Repr

/-- One backend call made by `ObjectMaterial::render`. -/
inductive RenderEvent where
  | activate
  | uploadCamera
  | uploadLight
  | uploadMatrices
  | uploadColor
  | bindMesh
  | bindTexture
  | enableCullFace
  | disableCullFace
  | polygonModeFill
  | polygonModeLine
  | polygonModePoint
  | lineWidth (w : ℤ)
  | pointSize (sz : ℤ)
  | bindEdges
  | drawElements (m : DrawMode) (count : ℕ)
  | unbindMesh
  | deactivate
deriving DecidableEq, Repr

/-- The event trace of one `ObjectMaterial::render` call, in source order:
activate, camera/light/matrix uploads, mesh and texture binds, then one
optional draw block per overlay (`surface_rendering_active`,
`lines_width != 0.0`, `points_size != 0.0`), then unbind and deactivate.
Line/point widths are exact scalars (`f32` values used by the claims are
integers). -/
def object_material_render (surface culling : Bool) (lines_width points_size : ℤ)
    (line_mode_ok point_mode_ok : Bool) (num_pts : ℕ) : List RenderEvent :=
  [.activate, .uploadCamera, .uploadLight, .uploadMatrices, .bindMesh, .bindTexture]
  ++ (if surface then
        [.uploadColor]
        ++ (if culling then [.enableCullFace] else [.disableCullFace])
        ++ [.polygonModeFill, .drawElements .triangles num_pts]
      else [])
  ++ (if lines_width = 0 then []
      else
        [.uploadColor, .disableCullFace, .lineWidth lines_width]
        ++ (if line_mode_ok then [.polygonModeLine, .drawElements .triangles num_pts]
            else [.bindEdges, .drawElements .lines (num_pts * 2)])
        ++ [.lineWidth 1])
  ++ (if points_size = 0 then []
      else
        [.uploadColor, .disableCullFace, .pointSize points_size]
        ++ (if point_mode_ok then [.polygonModePoint, .drawElements .triangles num_pts]
            else [.drawElements .points num_pts])
        ++ [.pointSize 1])
  ++ [.unbindMesh, .deactivate]

/-- Recognise a draw submission. -/
def isDrawCall : RenderEvent → Bool
  | .drawElements _ _ => true
  | _ => false

deriving instance DecidableEq for Except

/-- A `GPUVec` freshly built from a one-element array: dirty, CPU-resident,
no GPU handle. -/
def gpuFresh : GPUVecSt := GPUVecSt.new [7]

/-- `gpuFresh` after `load_to_gpu` (clean, one-element buffer on the GPU)
and a `data_mut` write replacing the CPU array by another one-element array:
dirty again, with the new element count equal to the allocated GPU length. -/
def gpuEqual : GPUVecSt :=
  GPUVecSt.data_mut_set (GPUVecSt.load_to_gpu (GPUVecSt.new [7])).1 (some [9])

/-!
## `Mesh::compute_normals` (C10)

Vertex coordinates are `Point3<f32>`; the computation (differences, cross
products, normalization, averaging) is modelled over the exact reals — the
claims about it are algebraic identities of that computation (`f32` rounding
is not modelled; every branch of the source is).  `normalize` divides by the
Euclidean norm; the source guards it behind `!cross.is_zero()`, so a
degenerate face contributes the zero vector.
-/

/-- A 3-vector over the exact reals (model of `Vector3<f32>`/`Point3<f32>`
in `compute_normals`). -/
structure Vec3R where
  x : ℝ
  y : ℝ
  z : ℝ

namespace Vec3R

noncomputable def zero : Vec3R := ⟨0, 0, 0⟩

noncomputable def add (a b : Vec3R) : Vec3R := ⟨a.x + b.x, a.y + b.y, a.z + b.z⟩

noncomputable def sub (a b : Vec3R) : Vec3R := ⟨a.x - b.x, a.y - b.y, a.z - b.z⟩

/-- `Vector3::cross`. -/
noncomputable def cross (a b : Vec3R) : Vec3R :=
  ⟨a.y * b.z - a.z * b.y, a.z * b.x - a.x * b.z, a.x * b.y - a.y * b.x⟩

/-- The Euclidean norm. -/
noncomputable def norm3 (v : Vec3R) : ℝ := Real.sqrt (v.x ^ 2 + v.y ^ 2 + v.z ^ 2)

/-- `Vector3::normalize`: divide by the Euclidean norm. -/
noncomputable def normalize (v : Vec3R) : Vec3R :=
  ⟨v.x / norm3 v, v.y / norm3 v, v.z / norm3 v⟩

/-- Componentwise division by a scalar (`*n /= *divisor`). -/
noncomputable def divR (v : Vec3R) (r : ℝ) : Vec3R := ⟨v.x / r, v.y / r, v.z / r⟩

end Vec3R

/-- A triangle of vertex indices (`Point3<VertexIndex>`). -/
structure TriFace where
  x : ℕ
  y : ℕ
  z : ℕ
deriving DecidableEq, Repr

/-- `normals[i] += v` (in-range updates only; the claims assume all face
indices in range, where this coincides with the source's indexed write). -/
noncomputable def listAddV : List Vec3R → ℕ → Vec3R → List Vec3R
  | [], _, _ => []
  | a :: t, 0, v => a.add v :: t
  | a :: t, n + 1, v => a :: listAddV t n v

/-- `divisor[i] += r`. -/
noncomputable def listAddR : List ℝ → ℕ → ℝ → List ℝ
  | [], _, _ => []
  | a :: t, 0, r => (a + r) :: t
  | a :: t, n + 1, r => a :: listAddR t n r

noncomputable instance : DecidableEq Vec3R := fun _ _ => Classical.dec _

/-- The per-face normal as the source computes it: the cross product of the
two edges out of vertex `x`, normalized unless it is the zero vector (a
degenerate face contributes the zero vector, not a NaN). -/
noncomputable def face_unit_normal (coords : List Vec3R) (f : TriFace) : Vec3R :=
  let edge1 := (coords.getD f.y Vec3R.zero).sub (coords.getD f.x Vec3R.zero)
  let edge2 := (coords.getD f.z Vec3R.zero).sub (coords.getD f.x Vec3R.zero)
  let cr := edge1.cross edge2
  if cr = Vec3R.zero then cr else cr.normalize

/-- The loop body of `Mesh::compute_normals` for one face: add the face's
unit normal to the three incident normal slots and bump the three incident
divisor slots. -/
noncomputable def normals_step (coords : List Vec3R) (acc : List Vec3R × List ℝ)
    (f : TriFace) : List Vec3R × List ℝ :=
  let n := face_unit_normal coords f
  (listAddV (listAddV (listAddV acc.1 f.x n) f.y n) f.z n,
   listAddR (listAddR (listAddR acc.2 f.x 1) f.y 1) f.z 1)

/-- `Mesh::compute_normals`: accumulate unit face normals and incidence
counts over all faces, then divide each slot by its count. -/
noncomputable def compute_normals (coords : List Vec3R) (faces : List TriFace) :
    List Vec3R :=
  let acc := faces.foldl (normals_step coords)
    (List.replicate coords.length Vec3R.zero, List.replicate coords.length (0 : ℝ))
  List.zipWith Vec3R.divR acc.1 acc.2

/-- Does the face reference vertex `i`? -/
def adjacent (i : ℕ) (f : TriFace) : Bool := (f.x == i) || (f.y == i) || (f.z == i)

/-- Sum of a list of vectors. -/
noncomputable def vsumR (l : List Vec3R) : Vec3R := l.foldr Vec3R.add Vec3R.zero

/-- The flat unit quad in the `z = 0` plane. -/
noncomputable def quadCoords : List Vec3R := [⟨0, 0, 0⟩, ⟨1, 0, 0⟩, ⟨1, 1, 0⟩, ⟨0, 1, 0⟩]

/-- Two coplanar triangles triangulating the quad. -/
def quadFaces : List TriFace := [⟨0, 1, 2⟩, ⟨0, 2, 3⟩]

namespace Vec3

@[simp] theorem cmul_ones (a : Vec3) : cmul a ones = a := by
  cases a; simp [cmul, ones]

@[simp] theorem ones_cmul (a : Vec3) : cmul ones a = a := by
  cases a; simp [cmul, ones]

theorem cmul_assoc (a b c : Vec3) : cmul (cmul a b) c = cmul a (cmul b c) := by
  cases a; cases b; cases c
  simp only [cmul, Vec3.mk.injEq]
  refine ⟨by ring, by ring, by ring⟩

theorem add_assoc (a b c : Vec3) : add (add a b) c = add a (add b c) := by
  cases a; cases b; cases c
  simp only [add, Vec3.mk.injEq]
  refine ⟨by ring, by ring, by ring⟩

end Vec3

namespace Mat3

theorem mul_assoc (a b c : Mat3) : mul (mul a b) c = mul a (mul b c) := by
  cases a; cases b; cases c
  simp only [mul, Mat3.mk.injEq]
  refine ⟨by ring, by ring, by ring, by ring, by ring, by ring, by ring, by ring, by ring⟩

@[simp] theorem one_mul (a : Mat3) : mul one a = a := by
  cases a; simp [mul, one]

@[simp] theorem mul_one (a : Mat3) : mul a one = a := by
  cases a; simp [mul, one]

@[simp] theorem one_mulVec (v : Vec3) : mulVec one v = v := by
  cases v; simp [mulVec, one]

theorem mul_mulVec (a b : Mat3) (v : Vec3) :
    mulVec (mul a b) v = mulVec a (mulVec b v) := by
  cases a; cases b; cases v
  simp only [mul, mulVec, Vec3.mk.injEq]
  refine ⟨by ring, by ring, by ring⟩

theorem mulVec_add (a : Mat3) (u v : Vec3) :
    mulVec a (u.add v) = (mulVec a u).add (mulVec a v) := by
  cases a; cases u; cases v
  simp only [Vec3.add, mulVec, Vec3.mk.injEq]
  refine ⟨by ring, by ring, by ring⟩

end Mat3

namespace Iso3

@[simp] theorem id3_comp (a : Iso3) : comp id3 a = a := by
  cases a with
  | mk r t => simp [comp, id3, Vec3.add, Vec3.zero]

@[simp] theorem comp_id3 (a : Iso3) : comp a id3 = a := by
  cases a with
  | mk r t =>
    cases r; cases t
    simp [comp, id3, Vec3.add, Vec3.zero, Mat3.mulVec]

theorem comp_assoc (a b c : Iso3) : comp (comp a b) c = comp a (comp b c) := by
  simp only [comp, Iso3.mk.injEq]
  constructor
  · exact Mat3.mul_assoc _ _ _
  · simp only [Mat3.mul_mulVec, Mat3.mulVec_add]
    exact Vec3.add_assoc _ _ _

end Iso3

namespace SNode

theorem flagOk_true (pu : Bool) (t : SNode) (h : flagOk pu t) : flagOk true t := by
  cases t with
  | node d cs =>
      simp only [flagOk] at h ⊢
      refine ⟨?_, h.2⟩
      simp

theorem flagOkF_true (pu : Bool) : ∀ f : SForest, flagOkF pu f → flagOkF true f
  | .nil, _ => by simp [flagOkF]
  | .cons c rest, h => by
      simp only [flagOkF] at h ⊢
      exact ⟨flagOk_true pu c h.1, flagOkF_true pu rest h.2⟩

mutual

theorem flagOk_of_allDirty (pu : Bool) : ∀ t : SNode, allDirty t = true → flagOk pu t
  | .node d cs, h => by
      simp only [allDirty, Bool.and_eq_true, Bool.not_eq_true'] at h
      simp only [flagOk]
      refine ⟨fun hu => absurd hu (by simp [h.1]), ?_⟩
      exact flagOkF_of_allDirtyF _ cs h.2

theorem flagOkF_of_allDirtyF (pu : Bool) : ∀ f : SForest, allDirtyF f = true → flagOkF pu f
  | .nil, _ => by simp [flagOkF]
  | .cons c rest, h => by
      simp only [allDirtyF, Bool.and_eq_true] at h
      simp only [flagOkF]
      exact ⟨flagOk_of_allDirty pu c h.1, flagOkF_of_allDirtyF pu rest h.2⟩

end

mutual

theorem cacheOk_of_allDirty (pw : Iso3) (pls : Vec3) :
    ∀ t : SNode, allDirty t = true → cacheOk pw pls t
  | .node d cs, h => by
      simp only [allDirty, Bool.and_eq_true, Bool.not_eq_true'] at h
      simp only [cacheOk]
      refine ⟨fun hu => absurd hu (by simp [h.1]), ?_⟩
      exact cacheOkF_of_allDirtyF _ _ cs h.2

theorem cacheOkF_of_allDirtyF (pw : Iso3) (pls : Vec3) :
    ∀ f : SForest, allDirtyF f = true → cacheOkF pw pls f
  | .nil, _ => by simp [cacheOkF]
  | .cons c rest, h => by
      simp only [allDirtyF, Bool.and_eq_true] at h
      simp only [cacheOkF]
      exact ⟨cacheOk_of_allDirty pw pls c h.1, cacheOkF_of_allDirtyF pw pls rest h.2⟩

end

mutual

theorem allDirty_of_flagOk : ∀ (t : SNode) (pu : Bool), flagOk pu t →
    t.ndata.up_to_date = false → allDirty t = true
  | .node d cs, pu, h, hd => by
      simp only [flagOk] at h
      simp only [ndata] at hd
      simp only [allDirty, Bool.and_eq_true, Bool.not_eq_true']
      exact ⟨hd, allDirtyF_of_flagOkF cs (hd ▸ h.2)⟩

theorem allDirtyF_of_flagOkF : ∀ f : SForest, flagOkF false f → allDirtyF f = true
  | .nil, _ => rfl
  | .cons c rest, h => by
      simp only [flagOkF] at h
      have hcd : c.ndata.up_to_date = false := by
        cases c with
        | node d cs =>
            simp only [flagOk] at h
            simp only [ndata]
            cases hu : d.up_to_date with
            | false => rfl
            | true => exact absurd (h.1.1 hu) (by simp)
      simp only [allDirtyF, Bool.and_eq_true]
      exact ⟨allDirty_of_flagOk c false h.1 hcd, allDirtyF_of_flagOkF rest h.2⟩

end

mutual

theorem invalidate_allDirty : ∀ (t : SNode) (pu : Bool), flagOk pu t →
    allDirty (invalidate t) = true
  | .node d cs, pu, h => by
      simp only [flagOk] at h
      simp only [invalidate, allDirty, Bool.and_eq_true, Bool.not_eq_true']
      refine ⟨?_, invalidateF_allDirtyF cs d.up_to_date h.2⟩
      simp

theorem invalidateF_allDirtyF : ∀ (f : SForest) (pu : Bool), flagOkF pu f →
    allDirtyF (invalidateF f) = true
  | .nil, _, _ => rfl
  | .cons (.node d cs) rest, pu, h => by
      simp only [flagOkF] at h
      simp only [invalidateF, allDirtyF, Bool.and_eq_true]
      refine ⟨?_, invalidateF_allDirtyF rest pu h.2⟩
      cases hu : d.up_to_date with
      | true => simp only [hu, if_true]; exact invalidate_allDirty _ pu h.1
      | false =>
          simp only [hu, Bool.false_eq_true, if_false]
          exact allDirty_of_flagOk _ pu h.1 (by simp [ndata, hu])

end

end SNode

namespace SNode

theorem fget_fset_self : ∀ (f : SForest) (i : ℕ) (x : SNode),
    (fget f i).isSome = true → fget (fset f i x) i = some x
  | .nil, i, x, h => by simp [fget] at h
  | .cons c rest, 0, x, _ => rfl
  | .cons c rest, n + 1, x, h => fget_fset_self rest n x h

theorem flagOk_of_fget (pu : Bool) : ∀ (f : SForest) (i : ℕ) (c : SNode),
    fget f i = some c → flagOkF pu f → flagOk pu c
  | .nil, i, c, h, _ => by simp [fget] at h
  | .cons a rest, 0, c, h, hf => by
      simp only [fget] at h
      simp only [flagOkF] at hf
      cases h
      exact hf.1
  | .cons a rest, n + 1, c, h, hf => by
      simp only [fget] at h
      simp only [flagOkF] at hf
      exact flagOk_of_fget pu rest n c h hf.2

theorem cacheOk_of_fget (pw : Iso3) (pls : Vec3) : ∀ (f : SForest) (i : ℕ) (c : SNode),
    fget f i = some c → cacheOkF pw pls f → cacheOk pw pls c
  | .nil, i, c, h, _ => by simp [fget] at h
  | .cons a rest, 0, c, h, hf => by
      simp only [fget] at h
      simp only [cacheOkF] at hf
      cases h
      exact hf.1
  | .cons a rest, n + 1, c, h, hf => by
      simp only [fget] at h
      simp only [cacheOkF] at hf
      exact cacheOk_of_fget pw pls rest n c h hf.2

theorem flagOkF_fset (pu : Bool) : ∀ (f : SForest) (i : ℕ) (x : SNode),
    flagOkF pu f → flagOk pu x → flagOkF pu (fset f i x)
  | .nil, _, _, hf, _ => hf
  | .cons a rest, 0, x, hf, hx => by
      simp only [flagOkF] at hf ⊢
      exact ⟨hx, hf.2⟩
  | .cons a rest, n + 1, x, hf, hx => by
      simp only [flagOkF, fset] at hf ⊢
      exact ⟨hf.1, flagOkF_fset pu rest n x hf.2 hx⟩

theorem cacheOkF_fset (pw : Iso3) (pls : Vec3) : ∀ (f : SForest) (i : ℕ) (x : SNode),
    cacheOkF pw pls f → cacheOk pw pls x → cacheOkF pw pls (fset f i x)
  | .nil, _, _, hf, _ => hf
  | .cons a rest, 0, x, hf, hx => by
      simp only [cacheOkF] at hf ⊢
      exact ⟨hx, hf.2⟩
  | .cons a rest, n + 1, x, hf, hx => by
      simp only [cacheOkF, fset] at hf ⊢
      exact ⟨hf.1, cacheOkF_fset pw pls rest n x hf.2 hx⟩

theorem flagOkF_fpush (pu : Bool) : ∀ (f : SForest) (x : SNode),
    flagOkF pu f → flagOk pu x → flagOkF pu (fpush f x)
  | .nil, x, _, hx => by simp only [fpush, flagOkF]; exact ⟨hx, trivial⟩
  | .cons a rest, x, hf, hx => by
      simp only [flagOkF, fpush] at hf ⊢
      exact ⟨hf.1, flagOkF_fpush pu rest x hf.2 hx⟩

theorem cacheOkF_fpush (pw : Iso3) (pls : Vec3) : ∀ (f : SForest) (x : SNode),
    cacheOkF pw pls f → cacheOk pw pls x → cacheOkF pw pls (fpush f x)
  | .nil, x, _, hx => by simp only [fpush, cacheOkF]; exact ⟨hx, trivial⟩
  | .cons a rest, x, hf, hx => by
      simp only [cacheOkF, fpush] at hf ⊢
      exact ⟨hf.1, cacheOkF_fpush pw pls rest x hf.2 hx⟩

end SNode

namespace SNode

theorem flagOk_mutateAt : ∀ (p : List ℕ) (t : SNode) (pu : Bool) (tr : Iso3) (sc : Vec3),
    flagOk pu t → flagOk pu (mutateAt t p tr sc)
  | [], .node d cs, pu, tr, sc, h => by
      have h2 : flagOk pu (.node { d with local_transform := tr, local_scale := sc } cs) := by
        simp only [flagOk] at h ⊢
        exact h
      simp only [mutateAt, modifyAt, apply_local_mutation]
      exact flagOk_of_allDirty pu _ (invalidate_allDirty _ pu h2)
  | i :: p, .node d cs, pu, tr, sc, h => by
      simp only [flagOk] at h
      simp only [mutateAt, modifyAt]
      cases hg : fget cs i with
      | none => simp only [flagOk]; exact h
      | some c =>
          simp only [flagOk]
          refine ⟨h.1, flagOkF_fset _ cs i _ h.2 ?_⟩
          exact flagOk_mutateAt p c d.up_to_date tr sc (flagOk_of_fget _ cs i c hg h.2)

theorem cacheOk_mutateAt : ∀ (p : List ℕ) (t : SNode) (pu : Bool) (pw : Iso3) (pls : Vec3)
    (tr : Iso3) (sc : Vec3),
    flagOk pu t → cacheOk pw pls t → cacheOk pw pls (mutateAt t p tr sc)
  | [], .node d cs, pu, pw, pls, tr, sc, h, _ => by
      have h2 : flagOk pu (.node { d with local_transform := tr, local_scale := sc } cs) := by
        simp only [flagOk] at h ⊢
        exact h
      simp only [mutateAt, modifyAt, apply_local_mutation]
      exact cacheOk_of_allDirty pw pls _ (invalidate_allDirty _ pu h2)
  | i :: p, .node d cs, pu, pw, pls, tr, sc, h, hc => by
      simp only [flagOk] at h
      simp only [cacheOk] at hc
      simp only [mutateAt, modifyAt]
      cases hg : fget cs i with
      | none => simp only [cacheOk]; exact hc
      | some c =>
          simp only [cacheOk]
          refine ⟨hc.1, cacheOkF_fset _ _ cs i _ hc.2 ?_⟩
          exact cacheOk_mutateAt p c d.up_to_date _ _ tr sc
            (flagOk_of_fget _ cs i c hg h.2) (cacheOk_of_fget _ _ cs i c hg hc.2)

theorem flagOk_attachAt : ∀ (p : List ℕ) (t : SNode) (c : SNode) (pu : Bool),
    flagOk pu t → allDirty c = true → flagOk pu (attachAt t p c)
  | [], .node d cs, c, pu, h, hcd => by
      simp only [flagOk] at h
      simp only [attachAt, modifyAt, flagOk]
      exact ⟨h.1, flagOkF_fpush _ cs c h.2 (flagOk_of_allDirty _ c hcd)⟩
  | i :: p, .node d cs, c, pu, h, hcd => by
      simp only [flagOk] at h
      simp only [attachAt, modifyAt]
      cases hg : fget cs i with
      | none => simp only [flagOk]; exact h
      | some a =>
          simp only [flagOk]
          refine ⟨h.1, flagOkF_fset _ cs i _ h.2 ?_⟩
          exact flagOk_attachAt p a c d.up_to_date (flagOk_of_fget _ cs i a hg h.2) hcd

theorem cacheOk_attachAt : ∀ (p : List ℕ) (t : SNode) (c : SNode) (pw : Iso3) (pls : Vec3),
    cacheOk pw pls t → allDirty c = true → cacheOk pw pls (attachAt t p c)
  | [], .node d cs, c, pw, pls, h, hcd => by
      simp only [cacheOk] at h
      simp only [attachAt, modifyAt, cacheOk]
      exact ⟨h.1, cacheOkF_fpush _ _ cs c h.2 (cacheOk_of_allDirty _ _ c hcd)⟩
  | i :: p, .node d cs, c, pw, pls, h, hcd => by
      simp only [cacheOk] at h
      simp only [attachAt, modifyAt]
      cases hg : fget cs i with
      | none => simp only [cacheOk]; exact h
      | some a =>
          simp only [cacheOk]
          refine ⟨h.1, cacheOkF_fset _ _ cs i _ h.2 ?_⟩
          exact cacheOk_attachAt p a c _ _ (cacheOk_of_fget _ _ cs i a hg h.2) hcd

end SNode

namespace SNode

theorem flagOk_node_true (d : NData) (f : SForest) (hu : d.up_to_date = true)
    (hf : flagOkF true f) : flagOk true (.node d f) := by
  simp only [flagOk, hu]
  exact ⟨fun _ => trivial, hf⟩

mutual

theorem flagOk_do_render : ∀ (t : SNode) (pu : Bool) (pt : Iso3) (ps : Vec3),
    flagOk pu t → flagOk true (do_render pt ps t)
  | .node d cs, pu, pt, ps, h => by
      simp only [flagOk] at h
      simp only [do_render]
      by_cases hu : d.up_to_date = true
      · rw [if_pos hu]
        exact flagOk_node_true d _ hu (flagOkF_do_renderF cs d.up_to_date _ _ h.2)
      · rw [if_neg hu]
        exact flagOk_node_true _ _ rfl (flagOkF_do_renderF cs d.up_to_date _ _ h.2)

theorem flagOkF_do_renderF : ∀ (f : SForest) (pu : Bool) (pt : Iso3) (ps : Vec3),
    flagOkF pu f → flagOkF true (do_renderF pt ps f)
  | .nil, _, _, _, _ => trivial
  | .cons (.node d cs) rest, pu, pt, ps, h => by
      simp only [flagOkF] at h
      simp only [do_renderF, flagOkF]
      refine ⟨?_, flagOkF_do_renderF rest pu pt ps h.2⟩
      by_cases hv : d.visible = true
      · rw [if_pos hv]
        exact flagOk_do_render _ pu pt ps h.1
      · rw [if_neg hv]
        exact flagOk_true pu _ h.1

end

theorem flagOk_render (t : SNode) (h : flagOk true t) : flagOk true (render t) := by
  unfold render
  by_cases hv : t.ndata.visible = true
  · rw [if_pos hv]
    exact flagOk_do_render t true _ _ h
  · rw [if_neg hv]
    exact h

end SNode

namespace SNode

theorem cacheOk_update_at_go :
    ∀ (p : List ℕ) (t : SNode) (pw ctxw : Iso3) (pls ctxs : Vec3),
      cacheOk pw pls t →
      (suf_dirty t p = true → ctxw = pw ∧ ctxs = pls) →
      cacheOk pw pls (update_at_go ctxw ctxs t p)
  | [], .node d cs, pw, ctxw, pls, ctxs, hc, hsd => by
      simp only [cacheOk] at hc
      simp only [update_at_go]
      by_cases hu : d.up_to_date = true
      · rw [if_pos hu]
        simp only [cacheOk]
        exact hc
      · rw [if_neg hu]
        simp only [Bool.not_eq_true] at hu
        obtain ⟨he1, he2⟩ := hsd (by simp [suf_dirty, hu])
        subst he1
        subst he2
        simp only [cacheOk]
        exact ⟨fun _ => ⟨rfl, rfl⟩, hc.2⟩
  | i :: p, .node d cs, pw, ctxw, pls, ctxs, hc, hsd => by
      simp only [cacheOk] at hc
      simp only [update_at_go]
      cases hg : fget cs i with
      | none => simp only [cacheOk]; exact hc
      | some c =>
          dsimp only
          have hcc : cacheOk (d.local_transform.comp pw) d.local_scale c :=
            cacheOk_of_fget _ _ cs i c hg hc.2
          by_cases hsc : suf_dirty c p = true
          · rw [if_pos hsc]
            by_cases hu : d.up_to_date = true
            · rw [if_pos hu]
              simp only [cacheOk]
              refine ⟨hc.1, cacheOkF_fset _ _ cs i _ hc.2 ?_⟩
              exact cacheOk_update_at_go p c _ _ _ _ hcc
                (fun _ => ⟨(hc.1 hu).1, rfl⟩)
            · rw [if_neg hu]
              simp only [Bool.not_eq_true] at hu
              obtain ⟨he1, he2⟩ := hsd (by simp [suf_dirty, hg, hu, hsc])
              subst he1
              subst he2
              simp only [cacheOk]
              refine ⟨fun _ => ⟨rfl, rfl⟩, cacheOkF_fset _ _ cs i _ hc.2 ?_⟩
              exact cacheOk_update_at_go p c _ _ _ _ hcc (fun _ => ⟨rfl, rfl⟩)
          · rw [if_neg hsc]
            simp only [cacheOk]
            refine ⟨hc.1, cacheOkF_fset _ _ cs i _ hc.2 ?_⟩
            exact cacheOk_update_at_go p c _ _ _ _ hcc (fun hs => absurd hs hsc)

end SNode

namespace SNode

theorem flagOk_update_at_go :
    ∀ (p : List ℕ) (t : SNode) (pu newPu : Bool) (ctxw : Iso3) (ctxs : Vec3),
      flagOk pu t →
      (pu = true → newPu = true) →
      (suf_dirty t p = true → newPu = true) →
      flagOk newPu (update_at_go ctxw ctxs t p)
  | [], .node d cs, pu, newPu, ctxw, ctxs, h, hmn, hsd => by
      simp only [flagOk] at h
      simp only [update_at_go]
      by_cases hu : d.up_to_date = true
      · rw [if_pos hu]
        simp only [flagOk]
        exact ⟨fun hx => hmn (h.1 hx), h.2⟩
      · rw [if_neg hu]
        simp only [Bool.not_eq_true] at hu
        have hnew : newPu = true := hsd (by simp [suf_dirty, hu])
        simp only [flagOk, update_body, hnew]
        exact ⟨by simp, by rw [hu] at h; exact flagOkF_true false cs h.2⟩
  | i :: p, .node d cs, pu, newPu, ctxw, ctxs, h, hmn, hsd => by
      simp only [flagOk] at h
      simp only [update_at_go]
      cases hg : fget cs i with
      | none => simp only [flagOk]; exact ⟨fun hx => hmn (h.1 hx), h.2⟩
      | some c =>
          dsimp only
          have hcf : flagOk d.up_to_date c := flagOk_of_fget _ cs i c hg h.2
          by_cases hsc : suf_dirty c p = true
          · rw [if_pos hsc]
            by_cases hu : d.up_to_date = true
            · rw [if_pos hu]
              simp only [flagOk]
              refine ⟨fun hx => hmn (h.1 hx), flagOkF_fset _ cs i _ h.2 ?_⟩
              exact flagOk_update_at_go p c d.up_to_date d.up_to_date _ _ hcf
                (fun hx => hx) (fun _ => hu)
            · rw [if_neg hu]
              simp only [Bool.not_eq_true] at hu
              have hnew : newPu = true := hsd (by simp [suf_dirty, hg, hu, hsc])
              simp only [flagOk, update_body, hnew]
              refine ⟨by simp, ?_⟩
              have h2 : flagOkF true cs := by rw [hu] at h; exact flagOkF_true false cs h.2
              refine flagOkF_fset _ cs i _ h2 ?_
              exact flagOk_update_at_go p c d.up_to_date true _ _ hcf
                (fun _ => rfl) (fun _ => rfl)
          · rw [if_neg hsc]
            simp only [flagOk]
            refine ⟨fun hx => hmn (h.1 hx), flagOkF_fset _ cs i _ h.2 ?_⟩
            exact flagOk_update_at_go p c d.up_to_date d.up_to_date _ _ hcf
              (fun hx => hx) (fun hs => absurd hs hsc)

end SNode

namespace SNode

theorem world_update_at_go :
    ∀ (p : List ℕ) (t : SNode) (pw ctxw : Iso3) (pls ctxs : Vec3),
      cacheOk pw pls t →
      (suf_dirty t p = true → ctxw = pw ∧ ctxs = pls) →
      hasPath t p = true →
      ((update_at_go ctxw ctxs t p).dataAt p).map (fun d => d.world_transform)
        = some (path_world pw t p)
  | [], .node d cs, pw, ctxw, pls, ctxs, hc, hsd, _ => by
      simp only [cacheOk] at hc
      simp only [update_at_go]
      by_cases hu : d.up_to_date = true
      · rw [if_pos hu]
        simp only [dataAt, Option.map, path_world]
        rw [(hc.1 hu).1]
      · rw [if_neg hu]
        simp only [Bool.not_eq_true] at hu
        obtain ⟨he1, he2⟩ := hsd (by simp [suf_dirty, hu])
        subst he1
        subst he2
        simp only [dataAt, Option.map, path_world, update_body]
  | i :: p, .node d cs, pw, ctxw, pls, ctxs, hc, hsd, hp => by
      simp only [cacheOk] at hc
      have hp2 : hasPath (.node d cs) (i :: p) = true := hp
      simp only [hasPath, dataAt] at hp2
      simp only [update_at_go]
      cases hg : fget cs i with
      | none => rw [hg] at hp2; simp at hp2
      | some c =>
          rw [hg] at hp2
          dsimp only
          have hcc : cacheOk (d.local_transform.comp pw) d.local_scale c :=
            cacheOk_of_fget _ _ cs i c hg hc.2
          have hgs : (fget cs i).isSome = true := by rw [hg]; rfl
          have hpw : path_world pw (.node d cs) (i :: p)
              = path_world (d.local_transform.comp pw) c p := by
            simp only [path_world, hg]
          by_cases hsc : suf_dirty c p = true
          · rw [if_pos hsc]
            by_cases hu : d.up_to_date = true
            · rw [if_pos hu]
              simp only [dataAt, fget_fset_self cs i _ hgs, hpw]
              exact world_update_at_go p c _ _ _ _ hcc (fun _ => ⟨(hc.1 hu).1, rfl⟩) hp2
            · rw [if_neg hu]
              simp only [Bool.not_eq_true] at hu
              obtain ⟨he1, he2⟩ := hsd (by simp [suf_dirty, hg, hu, hsc])
              subst he1
              subst he2
              simp only [dataAt, fget_fset_self cs i _ hgs, hpw]
              exact world_update_at_go p c _ _ _ _ hcc (fun _ => ⟨rfl, rfl⟩) hp2
          · rw [if_neg hsc]
            simp only [dataAt, fget_fset_self cs i _ hgs, hpw]
            exact world_update_at_go p c _ _ _ _ hcc (fun hs => absurd hs hsc) hp2

end SNode

namespace SNode

theorem path_world_eq_foldr :
    ∀ (p : List ℕ) (t : SNode) (pw : Iso3), hasPath t p = true →
      path_world pw t p
        = ((chainAt t p).reverse.map (fun d => d.local_transform)).foldr Iso3.comp pw
  | [], .node d cs, pw, _ => by
      simp [path_world, chainAt]
  | i :: p, .node d cs, pw, hp => by
      simp only [hasPath, dataAt] at hp
      cases hg : fget cs i with
      | none => rw [hg] at hp; simp at hp
      | some c =>
          rw [hg] at hp
          simp only [path_world, chainAt, hg, List.reverse_cons, List.map_append,
            List.foldr_append, List.map_cons, List.map_nil, List.foldr_cons, List.foldr_nil]
          exact path_world_eq_foldr p c (d.local_transform.comp pw) hp

theorem reachQ_invariant (t : SNode) (h : ReachQ t) :
    flagOk true t ∧ cacheOk Iso3.id3 Vec3.ones t := by
  induction h with
  | init t ht => exact ⟨flagOk_of_allDirty true t ht, cacheOk_of_allDirty _ _ t ht⟩
  | mutate t p tr sc _ ih =>
      exact ⟨flagOk_mutateAt p t true tr sc ih.1,
        cacheOk_mutateAt p t true _ _ tr sc ih.1 ih.2⟩
  | query t p _ ih =>
      exact ⟨flagOk_update_at_go p t true true _ _ ih.1 (fun hx => hx) (fun _ => rfl),
        cacheOk_update_at_go p t _ _ _ _ ih.2 (fun _ => ⟨rfl, rfl⟩)⟩
  | attach t p c _ hcd ih =>
      exact ⟨flagOk_attachAt p t c true ih.1 hcd, cacheOk_attachAt p t c _ _ ih.2 hcd⟩

theorem reachR_invariant (t : SNode) (h : ReachR t) : flagOk true t := by
  induction h with
  | init t ht => exact flagOk_of_allDirty true t ht
  | mutate t p tr sc _ ih => exact flagOk_mutateAt p t true tr sc ih
  | query t p _ ih =>
      exact flagOk_update_at_go p t true true _ _ ih (fun hx => hx) (fun _ => rfl)
  | attach t p c _ hcd ih => exact flagOk_attachAt p t c true ih hcd
  | renderStep t _ ih => exact flagOk_render t ih

theorem allDirty_subtree_mutateAt :
    ∀ (p : List ℕ) (t : SNode) (pu : Bool) (tr : Iso3) (sc : Vec3) (sub : SNode),
      flagOk pu t → subtreeAt (mutateAt t p tr sc) p = some sub → allDirty sub = true
  | [], .node d cs, pu, tr, sc, sub, h, hs => by
      have h2 : flagOk pu (.node { d with local_transform := tr, local_scale := sc } cs) := by
        simp only [flagOk] at h ⊢
        exact h
      simp only [mutateAt, modifyAt, apply_local_mutation, subtreeAt] at hs
      cases hs
      exact invalidate_allDirty _ pu h2
  | i :: p, .node d cs, pu, tr, sc, sub, h, hs => by
      simp only [flagOk] at h
      simp only [mutateAt, modifyAt] at hs
      cases hg : fget cs i with
      | none => rw [hg] at hs; simp only [subtreeAt, hg] at hs; cases hs
      | some c =>
          rw [hg] at hs
          dsimp only at hs
          have hgs : (fget cs i).isSome = true := by rw [hg]; rfl
          simp only [subtreeAt, fget_fset_self cs i _ hgs] at hs
          exact allDirty_subtree_mutateAt p c d.up_to_date tr sc sub
            (flagOk_of_fget _ cs i c hg h.2) hs

end SNode

namespace SNode

/-- C1 (counterexample): on the freshly built two-node tree `chainRT`
(root local = rotation about z, child local = unit x translation — a state
reached by building the tree and performing no further mutation),
`world_transformation()` on the child returns `child_local * root_local`
(translation `(1,0,0)`), not the claimed root-first product
`root_local * child_local` (translation `(0,1,0)`). -/
theorem C1_counterexample :
    world_transformation chainRT [0] = ⟨rotZ90, ⟨1, 0, 0⟩⟩ ∧
    root_first_world (chainAt chainRT [0]) = ⟨rotZ90, ⟨0, 1, 0⟩⟩ ∧
    world_transformation chainRT [0] ≠ root_first_world (chainAt chainRT [0]) := by
  decide

/-- C1 (amended): for every tree state reachable by local-transform
mutations, lazy resolutions and attaching unresolved subtrees, and every node
in it, `world_transformation()` returns the composition of the local
transforms along the ancestor chain in the *node-first* order — the node's
own local transform composed leftmost, i.e. `world = local * parent_world`
at every level (the source's `update()` order, opposite to the claimed
`parent_world * local`). -/
theorem C1_amended_node_first_composition (t : SNode) (p : List ℕ)
    (h : ReachQ t) (hp : hasPath t p = true) :
    world_transformation t p = node_first_world ((chainAt t p).reverse) := by
  obtain ⟨hf, hc⟩ := reachQ_invariant t h
  have hw := world_update_at_go p t Iso3.id3 Iso3.id3 Vec3.ones Vec3.ones hc
    (fun _ => ⟨rfl, rfl⟩) hp
  unfold world_transformation update_at
  rw [hw]
  simp only [Option.getD_some]
  rw [path_world_eq_foldr p t Iso3.id3 hp]
  rfl

/-- C1 (witness): the amended theorem applied to the concrete reachable tree
`chainRT` and the child node. -/
theorem C1_amended_node_first_composition_witness :
    hasPath chainRT [0] = true ∧
    world_transformation chainRT [0] = node_first_world ((chainAt chainRT [0]).reverse) :=
  ⟨by decide,
   C1_amended_node_first_composition chainRT [0]
     (ReachQ.attach _ [] _ (ReachQ.init _ (by decide)) (by decide)) (by decide)⟩

/-- C2: the two resolution paths do *not* agree.  On `chainRT`, the render
traversal caches the child's world transform as `parent_world * local`
(translation `(0,1,0)`) while lazy resolution via `update()` caches
`local * parent_world` (translation `(1,0,0)`); on the three-level
`scaleChain`, the render traversal computes the world scale `(30,1,1)`
(product of all ancestor scales) while `update()` computes `(15,1,1)`
(composing with the parent's *local* scale only). -/
theorem C2_two_resolution_paths_diverge :
    ((render chainRT).dataAt [0]).map (fun d => d.world_transform)
        = some ⟨rotZ90, ⟨0, 1, 0⟩⟩ ∧
    ((update_at chainRT [0]).dataAt [0]).map (fun d => d.world_transform)
        = some ⟨rotZ90, ⟨1, 0, 0⟩⟩ ∧
    ((render chainRT).dataAt [0]).map (fun d => d.world_transform)
        ≠ ((update_at chainRT [0]).dataAt [0]).map (fun d => d.world_transform) ∧
    ((render scaleChain).dataAt [0, 0]).map (fun d => d.world_scale)
        = some ⟨30, 1, 1⟩ ∧
    ((update_at scaleChain [0, 0]).dataAt [0, 0]).map (fun d => d.world_scale)
        = some ⟨15, 1, 1⟩ := by
  decide

/-- C3: `inverse_world_transformation()` returns the inverse of the *local*
transform, not of the world transform: on `chainTI` (root translated one
unit along x, child at the identity) the child's
`inverse_world_transformation()` is the identity, while the inverse of its
`world_transformation()` is the translation by `(-1,0,0)`. -/
theorem C3_inverse_world_uses_local :
    inverse_world_transformation chainTI [0] = Iso3.id3 ∧
    world_transformation chainTI [0] = isoTransX ∧
    (world_transformation chainTI [0]).inverse = ⟨Mat3.one, ⟨-1, 0, 0⟩⟩ ∧
    inverse_world_transformation chainTI [0]
      ≠ (world_transformation chainTI [0]).inverse := by
  decide

/-- C8 (counterexample): `add_child` does not invalidate the attached node,
so attaching an already-resolved root (`staleTree`: built only with public
operations `new`, `world_transformation`, `add_child`) yields a reachable
state violating the claimed invariant — the grandchild is up to date under a
dirty parent — and a subsequent local mutation of the root leaves that
grandchild resolved: the pruned invalidation loses it. -/
theorem C8_counterexample :
    (staleTree.dataAt [0]).map (fun d => d.up_to_date) = some false ∧
    (staleTree.dataAt [0, 0]).map (fun d => d.up_to_date) = some true ∧
    ((mutateAt staleTree [] Iso3.id3 Vec3.ones).dataAt [0, 0]).map (fun d => d.up_to_date)
      = some true := by
  decide

/-- C8 (amended): for every tree state reachable from an unresolved tree by
local mutations, lazy resolutions, render traversals and attaching *not yet
resolved* subtrees (`add_child` performs no invalidation, so attaching an
already-resolved root is excluded — see the counterexample), the pruning
invariant holds (an up-to-date node's parent is up to date), and therefore a
local mutation of any node leaves its entire subtree dirty: the pruned
invalidation loses no resolved descendant. -/
theorem C8_amended_invalidation (t : SNode) (h : ReachR t) :
    flagOk true t ∧
    ∀ (p : List ℕ) (tr : Iso3) (sc : Vec3) (sub : SNode),
      subtreeAt (mutateAt t p tr sc) p = some sub → allDirty sub = true := by
  have hf := reachR_invariant t h
  exact ⟨hf, fun p tr sc sub hs => allDirty_subtree_mutateAt p t true tr sc sub hf hs⟩

/-- C8 (witness): the amended theorem applied to the concrete reachable
state obtained from `scaleChain` by resolving the leaf and rendering once. -/
theorem C8_amended_invalidation_witness :
    flagOk true (render (update_at scaleChain [0, 0])) ∧
    ∀ (p : List ℕ) (tr : Iso3) (sc : Vec3) (sub : SNode),
      subtreeAt (mutateAt (render (update_at scaleChain [0, 0])) p tr sc) p = some sub →
        allDirty sub = true :=
  C8_amended_invalidation _
    (ReachR.renderStep _ (ReachR.query _ [0, 0] (ReachR.init _ (by decide))))

end SNode

/-- C4: `unload_from_ram` on a dirty `GPUVec` that has no GPU handle yet
(`GPUVec::new` followed directly by `unload_from_ram`) performs no backend
call at all — in particular it allocates no GPU buffer and uploads nothing —
and frees the CPU array, silently discarding the only copy of the data and
leaving the dirty flag set with no backing store. -/
theorem C4_unload_from_ram_discards_dirty_data :
    (GPUVecSt.unload_from_ram gpuFresh).2 = [] ∧
    (GPUVecSt.unload_from_ram gpuFresh).1.data = none ∧
    (GPUVecSt.unload_from_ram gpuFresh).1.buffer = none ∧
    (GPUVecSt.unload_from_ram gpuFresh).1.trash = true := by
  decide

/-- C5: `len()` panics (`"This should never happend."`) on a state reachable
with two public calls — `GPUVec::new` then `unload_from_ram` (no GPU handle
was ever created, so the dirty CPU data is dropped and `len()` finds neither
a CPU array nor a clean cache). -/
theorem C5_len_panics_after_dirty_unload :
    GPUVecSt.len_query (GPUVecSt.unload_from_ram gpuFresh).1
      = Except.error "This should never happend." := by
  decide

/-- C6 (counterexample): on `gpuEqual` — dirty, GPU handle allocated for one
element, new CPU array also of one element (new count *equal* to the
allocated GPU length) — `load_to_gpu` performs the full reallocating
`buffer_data` upload, not the claimed sub-range `buffer_sub_data` update
(the source uses a strict `<`, the claim says `<=`). -/
theorem C6_counterexample :
    gpuEqual.trash = true ∧
    gpuEqual.buffer = some 1 ∧
    gpuEqual.data.map List.length = some 1 ∧
    (GPUVecSt.load_to_gpu gpuEqual).2 = [GLEvent.bindBuffer, GLEvent.bufferData 1] ∧
    GLEvent.bufferSubData 1 ∉ (GPUVecSt.load_to_gpu gpuEqual).2 := by
  decide

/-- C6 (amended): on a dirty `GPUVec` with an existing GPU handle and a CPU
array, `load_to_gpu` binds the buffer and issues a sub-range update exactly
when the new element count is *strictly smaller* than the allocated GPU
length, and a full reallocating upload when it is greater *or equal*; it
always clears the dirty flag, refreshes the cached length, and records the
allocated length as the maximum of the old and new counts. -/
theorem C6_amended_load_to_gpu (s : GPUVecSt) (glen : ℕ) (d : List ℤ)
    (hb : s.buffer = some glen) (ht : s.trash = true) (hd : s.data = some d) :
    (GPUVecSt.load_to_gpu s).2
      = (if d.length < glen then [GLEvent.bindBuffer, GLEvent.bufferSubData d.length]
         else [GLEvent.bindBuffer, GLEvent.bufferData d.length]) ∧
    (GPUVecSt.load_to_gpu s).1.trash = false ∧
    (GPUVecSt.load_to_gpu s).1.len = d.length ∧
    (GPUVecSt.load_to_gpu s).1.buffer = some (max glen d.length) := by
  have hg : s.is_on_gpu = true := by simp [GPUVecSt.is_on_gpu, hb]
  simp only [GPUVecSt.load_to_gpu, hg, ht, hb, hd, GPUVecSt.update_buffer]
  by_cases hlt : d.length < glen
  · simp [hlt, Nat.max_eq_left (Nat.le_of_lt hlt)]
  · simp [hlt, Nat.max_eq_right (Nat.le_of_not_lt hlt)]

/-- C6 (witness): the amended theorem applied to the concrete state
`gpuEqual` (equal counts: the reallocating branch). -/
theorem C6_amended_load_to_gpu_witness :
    (gpuEqual.buffer = some 1 ∧ gpuEqual.trash = true ∧ gpuEqual.data = some [9]) ∧
    ((GPUVecSt.load_to_gpu gpuEqual).2
        = (if ([(9 : ℤ)].length < 1) then
             [GLEvent.bindBuffer, GLEvent.bufferSubData [(9 : ℤ)].length]
           else [GLEvent.bindBuffer, GLEvent.bufferData [(9 : ℤ)].length]) ∧
     (GPUVecSt.load_to_gpu gpuEqual).1.trash = false ∧
     (GPUVecSt.load_to_gpu gpuEqual).1.len = [(9 : ℤ)].length ∧
     (GPUVecSt.load_to_gpu gpuEqual).1.buffer = some (max 1 [(9 : ℤ)].length)) :=
  ⟨⟨by decide, by decide, by decide⟩,
   C6_amended_load_to_gpu gpuEqual 1 [9] (by decide) (by decide) (by decide)⟩

/-- C7: `add_child` fails exactly when the argument already has a parent
(it asserts `is_root` before touching anything, so on failure every
parent/children link is unchanged — the error carries the state at the
panic point, equal to the initial state), and succeeds exactly when the
argument is currently a root. -/
theorem C7_add_child_requires_root (g : NodeGraph) (p c : ℕ) :
    ((g.parent c).isSome = true → NodeGraph.add_child g p c = Except.error g) ∧
    ((NodeGraph.add_child g p c).isOk = true ↔ g.is_root c = true) := by
  constructor
  · intro h
    have hr : g.is_root c = false := by
      simp only [NodeGraph.is_root]
      cases hp : g.parent c with
      | none => rw [hp] at h; simp at h
      | some q => simp
    simp [NodeGraph.add_child, hr]
  · cases hr : g.is_root c with
    | true => simp [NodeGraph.add_child, hr, Except.isOk, Except.toBool]
    | false => simp [NodeGraph.add_child, hr, Except.isOk, Except.toBool]

/-- C7 (witness): on the concrete graph `exampleGraph`, attaching node 1
(which has parent 0) under node 2 fails with the state unchanged, and the
call does not succeed. -/
theorem C7_add_child_requires_root_witness :
    (exampleGraph.parent 1).isSome = true ∧
    NodeGraph.add_child exampleGraph 2 1 = Except.error exampleGraph ∧
    (NodeGraph.add_child exampleGraph 2 1).isOk = false := by
  refine ⟨rfl, (C7_add_child_requires_root exampleGraph 2 1).1 rfl, ?_⟩
  have h := (C7_add_child_requires_root exampleGraph 2 1).2
  cases hk : (NodeGraph.add_child exampleGraph 2 1).isOk with
  | false => rfl
  | true => exact absurd (h.mp hk) (by decide)

/-- C9: a render call with surface rendering enabled, `lines_width = 2.0`
and `points_size = 0.0` issues exactly two draw submissions — one
filled-surface draw and one wireframe draw — regardless of the culling flag
and of which wireframe fallback the backend takes; never a third. -/
theorem C9_two_draw_submissions (culling line_mode_ok point_mode_ok : Bool) (num_pts : ℕ) :
    (object_material_render true culling 2 0 line_mode_ok point_mode_ok num_pts).filter
        isDrawCall
      = [RenderEvent.drawElements DrawMode.triangles num_pts,
         if line_mode_ok then RenderEvent.drawElements DrawMode.triangles num_pts
         else RenderEvent.drawElements DrawMode.lines (num_pts * 2)] ∧
    ((object_material_render true culling 2 0 line_mode_ok point_mode_ok num_pts).filter
        isDrawCall).length = 2 := by
  cases culling <;> cases line_mode_ok <;> cases point_mode_ok <;>
    simp [object_material_render, isDrawCall]

namespace Vec3R

theorem add_zeroR (v : Vec3R) : v.add zero = v := by
  cases v; simp [add, zero]

theorem zero_addR (v : Vec3R) : zero.add v = v := by
  cases v; simp [add, zero]

theorem add_assocR (a b c : Vec3R) : (a.add b).add c = a.add (b.add c) := by
  cases a; cases b; cases c
  simp only [add, Vec3R.mk.injEq]
  refine ⟨by ring, by ring, by ring⟩

end Vec3R

theorem listAddV_length : ∀ (l : List Vec3R) (j : ℕ) (v : Vec3R),
    (listAddV l j v).length = l.length
  | [], _, _ => rfl
  | _ :: t, 0, _ => rfl
  | _ :: t, n + 1, v => by simp [listAddV, listAddV_length t n v]

theorem listAddR_length : ∀ (l : List ℝ) (j : ℕ) (r : ℝ),
    (listAddR l j r).length = l.length
  | [], _, _ => rfl
  | _ :: t, 0, _ => rfl
  | _ :: t, n + 1, r => by simp [listAddR, listAddR_length t n r]

theorem listAddV_getD : ∀ (l : List Vec3R) (j i : ℕ) (v : Vec3R), i < l.length →
    (listAddV l j v).getD i Vec3R.zero
      = if i = j then (l.getD i Vec3R.zero).add v else l.getD i Vec3R.zero
  | [], j, i, v, h => by simp at h
  | a :: t, 0, 0, v, _ => by simp [listAddV]
  | a :: t, 0, k + 1, v, _ => by simp [listAddV]
  | a :: t, m + 1, 0, v, _ => by simp [listAddV]
  | a :: t, m + 1, k + 1, v, h => by
      simp only [listAddV, List.getD_cons_succ]
      rw [listAddV_getD t m k v (by simpa using h)]
      simp [Nat.succ_inj]

theorem listAddR_getD : ∀ (l : List ℝ) (j i : ℕ) (r : ℝ), i < l.length →
    (listAddR l j r).getD i 0
      = if i = j then l.getD i 0 + r else l.getD i 0
  | [], j, i, r, h => by simp at h
  | a :: t, 0, 0, r, _ => by simp [listAddR]
  | a :: t, 0, k + 1, r, _ => by simp [listAddR]
  | a :: t, m + 1, 0, r, _ => by simp [listAddR]
  | a :: t, m + 1, k + 1, r, h => by
      simp only [listAddR, List.getD_cons_succ]
      rw [listAddR_getD t m k r (by simpa using h)]
      simp [Nat.succ_inj]

theorem normals_step_length (coords : List Vec3R) (acc : List Vec3R × List ℝ) (f : TriFace) :
    (normals_step coords acc f).1.length = acc.1.length ∧
    (normals_step coords acc f).2.length = acc.2.length := by
  simp [normals_step, listAddV_length, listAddR_length]

theorem normals_step_getD (coords : List Vec3R) (acc : List Vec3R × List ℝ) (f : TriFace)
    (i : ℕ) (h1 : i < acc.1.length) (h2 : i < acc.2.length)
    (hd : f.x ≠ f.y ∧ f.x ≠ f.z ∧ f.y ≠ f.z) :
    ((normals_step coords acc f).1.getD i Vec3R.zero
       = if adjacent i f then (acc.1.getD i Vec3R.zero).add (face_unit_normal coords f)
         else acc.1.getD i Vec3R.zero) ∧
    ((normals_step coords acc f).2.getD i 0
       = if adjacent i f then acc.2.getD i 0 + 1 else acc.2.getD i 0) := by
  obtain ⟨hxy, hxz, hyz⟩ := hd
  constructor
  · show (listAddV (listAddV (listAddV acc.1 f.x _) f.y _) f.z _).getD i Vec3R.zero = _
    rw [listAddV_getD _ f.z i _ (by simp [listAddV_length, h1]),
        listAddV_getD _ f.y i _ (by simp [listAddV_length, h1]),
        listAddV_getD _ f.x i _ h1]
    by_cases hx : i = f.x <;> by_cases hy : i = f.y <;> by_cases hz : i = f.z
    · exact absurd (hx ▸ hy) hxy
    · exact absurd (hx ▸ hy) hxy
    · exact absurd (hx ▸ hz) hxz
    · simp [hx, adjacent, hxy, hxz, hyz, Ne.symm hxy, Ne.symm hxz, Ne.symm hyz]
    · exact absurd (hy ▸ hz) hyz
    · simp [hy, adjacent, hxy, hyz, Ne.symm hxy, Ne.symm hyz]
    · simp [hz, adjacent, Ne.symm hxz, Ne.symm hyz]
    · simp [adjacent, hx, hy, hz, Ne.symm hx, Ne.symm hy, Ne.symm hz]
  · show (listAddR (listAddR (listAddR acc.2 f.x _) f.y _) f.z _).getD i 0 = _
    rw [listAddR_getD _ f.z i _ (by simp [listAddR_length, h2]),
        listAddR_getD _ f.y i _ (by simp [listAddR_length, h2]),
        listAddR_getD _ f.x i _ h2]
    by_cases hx : i = f.x <;> by_cases hy : i = f.y <;> by_cases hz : i = f.z
    · exact absurd (hx ▸ hy) hxy
    · exact absurd (hx ▸ hy) hxy
    · exact absurd (hx ▸ hz) hxz
    · simp [hx, adjacent, hxy, hxz, hyz, Ne.symm hxy, Ne.symm hxz, Ne.symm hyz]
    · exact absurd (hy ▸ hz) hyz
    · simp [hy, adjacent, hxy, hyz, Ne.symm hxy, Ne.symm hyz]
    · simp [hz, adjacent, Ne.symm hxz, Ne.symm hyz]
    · simp [adjacent, hx, hy, hz, Ne.symm hx, Ne.symm hy, Ne.symm hz]

theorem fold_normals_length (coords : List Vec3R) :
    ∀ (faces : List TriFace) (acc : List Vec3R × List ℝ),
      (faces.foldl (normals_step coords) acc).1.length = acc.1.length ∧
      (faces.foldl (normals_step coords) acc).2.length = acc.2.length
  | [], acc => ⟨rfl, rfl⟩
  | f :: rest, acc => by
      simp only [List.foldl_cons]
      have h := fold_normals_length coords rest (normals_step coords acc f)
      have hs := normals_step_length coords acc f
      exact ⟨h.1.trans hs.1, h.2.trans hs.2⟩

theorem fold_normals_spec (coords : List Vec3R) :
    ∀ (faces : List TriFace) (acc : List Vec3R × List ℝ) (i : ℕ),
      i < acc.1.length → i < acc.2.length →
      (∀ f ∈ faces, f.x ≠ f.y ∧ f.x ≠ f.z ∧ f.y ≠ f.z) →
      ((faces.foldl (normals_step coords) acc).1.getD i Vec3R.zero
         = (acc.1.getD i Vec3R.zero).add
             (vsumR ((faces.filter (adjacent i)).map (face_unit_normal coords)))) ∧
      ((faces.foldl (normals_step coords) acc).2.getD i 0
         = acc.2.getD i 0 + ((faces.filter (adjacent i)).length : ℝ))
  | [], acc, i, _, _, _ => by
      simp [vsumR, Vec3R.add_zeroR]
  | f :: rest, acc, i, h1, h2, hd => by
      simp only [List.foldl_cons]
      have hs := normals_step_length coords acc f
      have ih := fold_normals_spec coords rest (normals_step coords acc f) i
        (by rw [hs.1]; exact h1) (by rw [hs.2]; exact h2)
        (fun g hg => hd g (List.mem_cons_of_mem f hg))
      have hstep := normals_step_getD coords acc f i h1 h2 (hd f (List.mem_cons_self f rest))
      cases hadj : adjacent i f with
      | true =>
          rw [hadj] at hstep
          simp only [if_true] at hstep
          constructor
          · rw [ih.1, hstep.1]
            simp only [List.filter_cons, hadj, if_true, List.map_cons, vsumR,
              List.foldr_cons]
            rw [Vec3R.add_assocR]
          · rw [ih.2, hstep.2]
            simp only [List.filter_cons, hadj, if_true, List.length_cons]
            push_cast
            ring
      | false =>
          rw [hadj] at hstep
          simp only [Bool.false_eq_true, if_false] at hstep
          constructor
          · rw [ih.1, hstep.1]
            simp only [List.filter_cons, hadj, Bool.false_eq_true, if_false]
          · rw [ih.2, hstep.2]
            simp only [List.filter_cons, hadj, Bool.false_eq_true, if_false]

theorem zipWith_divR_getD : ∀ (as : List Vec3R) (bs : List ℝ) (i : ℕ),
    i < as.length → i < bs.length →
    (List.zipWith Vec3R.divR as bs).getD i Vec3R.zero
      = (as.getD i Vec3R.zero).divR (bs.getD i 0)
  | [], _, i, h, _ => by simp at h
  | _ :: _, [], i, _, h => by simp at h
  | a :: as, b :: bs, 0, _, _ => by simp [List.zipWith]
  | a :: as, b :: bs, k + 1, h1, h2 => by
      simp only [List.zipWith, List.getD_cons_succ]
      exact zipWith_divR_getD as bs k (by simpa using h1) (by simpa using h2)

theorem replicate_getD_V : ∀ (n i : ℕ),
    (List.replicate n Vec3R.zero).getD i Vec3R.zero = Vec3R.zero
  | 0, _ => rfl
  | n + 1, 0 => rfl
  | n + 1, k + 1 => by
      simp only [List.replicate, List.getD_cons_succ]
      exact replicate_getD_V n k

theorem replicate_getD_R : ∀ (n i : ℕ), (List.replicate n (0 : ℝ)).getD i 0 = 0
  | 0, _ => rfl
  | n + 1, 0 => rfl
  | n + 1, k + 1 => by
      simp only [List.replicate, List.getD_cons_succ]
      exact replicate_getD_R n k

/-- C10: `compute_normals` assigns to every vertex the sum of the unit
normals of its adjacent faces divided by the adjacent-face count (uniform
averaging); a degenerate face whose edge cross product is the zero vector
contributes that zero vector (`face_unit_normal` is unnormalized exactly on
that branch, as in the source). -/
theorem C10_compute_normals_uniform_average (coords : List Vec3R) (faces : List TriFace)
    (i : ℕ)
    (_hr : ∀ f ∈ faces, f.x < coords.length ∧ f.y < coords.length ∧ f.z < coords.length)
    (hd : ∀ f ∈ faces, f.x ≠ f.y ∧ f.x ≠ f.z ∧ f.y ≠ f.z)
    (hi : i < coords.length) :
    (compute_normals coords faces).getD i Vec3R.zero
      = (vsumR ((faces.filter (adjacent i)).map (face_unit_normal coords))).divR
          ((faces.filter (adjacent i)).length : ℝ) := by
  unfold compute_normals
  have hlen := fold_normals_length coords faces
    (List.replicate coords.length Vec3R.zero, List.replicate coords.length (0 : ℝ))
  have hspec := fold_normals_spec coords faces
    (List.replicate coords.length Vec3R.zero, List.replicate coords.length (0 : ℝ)) i
    (by simpa using hi) (by simpa using hi) hd
  rw [zipWith_divR_getD _ _ i (by rw [hlen.1]; simpa using hi)
    (by rw [hlen.2]; simpa using hi)]
  rw [hspec.1, hspec.2]
  rw [replicate_getD_V, replicate_getD_R, Vec3R.zero_addR, zero_add]

theorem face_unit_normal_quad1 : face_unit_normal quadCoords ⟨0, 1, 2⟩ = ⟨0, 0, 1⟩ := by
  rw [face_unit_normal]
  norm_num [quadCoords, Vec3R.sub, Vec3R.cross, Vec3R.zero, Vec3R.normalize, Vec3R.norm3]

theorem face_unit_normal_quad2 : face_unit_normal quadCoords ⟨0, 2, 3⟩ = ⟨0, 0, 1⟩ := by
  rw [face_unit_normal]
  norm_num [quadCoords, Vec3R.sub, Vec3R.cross, Vec3R.zero, Vec3R.normalize, Vec3R.norm3]

/-- C10 (witness): on the flat unit quad split into two coplanar triangles,
the computed per-vertex normal at the shared vertex 0 (two adjacent faces)
and at vertex 1 (one adjacent face) both equal the common face normal
`(0,0,1)`. -/
theorem C10_compute_normals_uniform_average_witness :
    (∀ f ∈ quadFaces, f.x < quadCoords.length ∧ f.y < quadCoords.length
        ∧ f.z < quadCoords.length) ∧
    (∀ f ∈ quadFaces, f.x ≠ f.y ∧ f.x ≠ f.z ∧ f.y ≠ f.z) ∧
    (compute_normals quadCoords quadFaces).getD 0 Vec3R.zero = ⟨0, 0, 1⟩ ∧
    (compute_normals quadCoords quadFaces).getD 1 Vec3R.zero = ⟨0, 0, 1⟩ := by
  refine ⟨by decide, by decide, ?_, ?_⟩
  · rw [C10_compute_normals_uniform_average quadCoords quadFaces 0 (by decide) (by decide)
      (by decide)]
    norm_num [quadFaces, adjacent, face_unit_normal_quad1, face_unit_normal_quad2,
      vsumR, Vec3R.add, Vec3R.zero, Vec3R.divR]
  · rw [C10_compute_normals_uniform_average quadCoords quadFaces 1 (by decide) (by decide)
      (by decide)]
    norm_num [quadFaces, adjacent, face_unit_normal_quad1, face_unit_normal_quad2,
      vsumR, Vec3R.add, Vec3R.zero, Vec3R.divR]
